import Mathlib

/-!
Verification of the query subsystem of the `notes` repository.

The embedding covers:
* `src/notes/sdk/query.py` — tokenizer (`QueryParser._tokenize`),
  recursive-descent parser (`QueryParser._parse_or` / `_parse_and` /
  `_parse_unary` / `_parse_atom` / `_parse_atom_from_token`) and the
  top-level `parse_query`;
* `src/notes/sdk/providers/appsheet/provider.py` — the AST-to-Selector
  compiler `AppSheetProvider._query_to_selector` and the selector-building
  fragment of `AppSheetProvider.list`.

Tokens are modelled as `List Char` (Python strings); the parser's mutable
`token_pos` is modelled by passing the remaining-token list explicitly.
The tokenizer loop and the mutually recursive parser are written with an
explicit fuel parameter (structural recursion on `Nat`); a fuel value
linear in the input size is proved sufficient, which is the formal content
of the termination claims.
-/

/-- Python `str.isspace` restricted to the ASCII whitespace characters. -/
def pyIsSpace (c : Char) : Bool :=
  c == ' ' || c == '\t' || c == '\n' || c == '\r' || c == '\x0b' || c == '\x0c'

/-- A token of the query language: Python slices of the query string. -/
abbrev Tok := List Char

/-- Python `s.strip()` on a character list: drop whitespace from both ends. -/
def pyStripList (l : List Char) : List Char :=
  (l.dropWhile pyIsSpace).rdropWhile pyIsSpace

/-- Python `token.strip('"')`: drop `"` characters from both ends. -/
def stripQuoteChars (l : List Char) : List Char :=
  (l.dropWhile (· == '"')).rdropWhile (· == '"')

/-- Python `s.upper()` (ASCII) on a token. -/
def pyUpperTok (t : Tok) : Tok := t.map Char.toUpper

/-- Python `s.lower()` (ASCII) on a token. -/
def pyLowerTok (t : Tok) : Tok := t.map Char.toLower

/-- The continuation condition of the word scan in `_tokenize`: not
whitespace, not a parenthesis, and stop at a double quote. -/
def wordChar (d : Char) : Bool :=
  !(pyIsSpace d) && d != '(' && d != ')' && d != '"'

/-- The character scan of a quoted string: everything up to the closing
quote. -/
def notQuote (d : Char) : Bool := d != '"'

/-- `QueryParser._tokenize`, with fuel.  Each loop iteration of the Python
code consumes at least one character, so fuel `length + 1` suffices
(proved below).  `none` means the fuel ran out. -/
def tokenizeF : Nat → List Char → Option (List Tok)
  | 0, _ => none
  | _ + 1, [] => some []
  | n + 1, c :: cs =>
    if pyIsSpace c then
      -- skip whitespace
      tokenizeF n cs
    else if c = '"' then
      -- quoted string: scan to the next '"' or end of input
      let inner := cs.takeWhile notQuote
      let rest := cs.drop inner.length
      let tok := if rest.isEmpty then c :: inner else c :: inner ++ ['"']
      (tokenizeF n (rest.drop 1)).map (fun ts => tok :: ts)
    else if c = '(' || c = ')' then
      (tokenizeF n cs).map (fun ts => [c] :: ts)
    else
      -- word: maximal run of non-space, non-paren chars, stopping at '"'
      let w := (c :: cs).takeWhile wordChar
      (tokenizeF n ((c :: cs).drop w.length)).map (fun ts => w :: ts)

/-- `QueryParser._tokenize` at sufficient fuel. -/
def tokenize (l : List Char) : List Tok :=
  (tokenizeF (l.length + 1) l).getD []

/-- The query AST (`TextSearch` / `LabelFilter` / `NotExpr` / `AndExpr` /
`OrExpr` dataclasses of `query.py`). -/
inductive QueryExpr where
  | textSearch (value : String)
  | labelFilter (value : String)
  | notExpr (expr : QueryExpr)
  | andExpr (left : QueryExpr) (right : QueryExpr)
  | orExpr (left : QueryExpr) (right : QueryExpr)
deriving Repr, DecidableEq

/-- `QueryParser._parse_atom_from_token`.  In Python this always returns a
node (never `None`): every branch constructs a dataclass instance. -/
def parseAtomFromToken (t : Tok) : QueryExpr :=
  if t.head? = some '"' then
    .textSearch (String.mk (stripQuoteChars t))
  else if ['l', 'a', 'b', 'e', 'l', ':'].isPrefixOf (pyLowerTok t) then
    .labelFilter (String.mk (t.drop 6))
  else
    .textSearch (String.mk t)

/-- Which parser routine of `QueryParser` is executing:
the four mutually recursive nonterminals plus the two `while` loops
(of `_parse_or` and `_parse_and`), whose accumulated left operand is the
constructor argument. -/
inductive PMode where
  | parseOr
  | parseOrLoop (left : QueryExpr)
  | parseAnd
  | parseAndLoop (left : QueryExpr)
  | parseUnary
  | parseAtom

/-- The recursive-descent parser of `QueryParser`, with fuel: returns the
parse result together with the remaining tokens (the Python `token_pos`
state), or `none` when the fuel ran out.  A linear fuel bound is proved
sufficient below. -/
def parseF : Nat → PMode → List Tok → Option (Option QueryExpr × List Tok)
  | 0, _, _ => none
  | n + 1, .parseOr, ts =>
    -- _parse_or: left = _parse_and(); None propagates; else the OR loop
    match parseF n .parseAnd ts with
    | none => none
    | some (none, ts₁) => some (none, ts₁)
    | some (some left, ts₁) => parseF n (.parseOrLoop left) ts₁
  | n + 1, .parseOrLoop left, ts =>
    -- while current() and current().upper() == "OR"
    match ts with
    | [] => some (some left, [])
    | t :: rest =>
      if t ≠ [] ∧ pyUpperTok t = ['O', 'R'] then
        match parseF n .parseAnd rest with
        | none => none
        | some (none, ts₂) => some (some left, ts₂)
        | some (some right, ts₂) => parseF n (.parseOrLoop (.orExpr left right)) ts₂
      else some (some left, ts)
  | n + 1, .parseAnd, ts =>
    -- _parse_and: left = _parse_unary(); None propagates; else implicit-AND loop
    match parseF n .parseUnary ts with
    | none => none
    | some (none, ts₁) => some (none, ts₁)
    | some (some left, ts₁) => parseF n (.parseAndLoop left) ts₁
  | n + 1, .parseAndLoop left, ts =>
    -- while current() and current().upper() != "OR" and current() != ")"
    match ts with
    | [] => some (some left, [])
    | t :: _ =>
      if t ≠ [] ∧ pyUpperTok t ≠ ['O', 'R'] ∧ t ≠ [')'] then
        match parseF n .parseUnary ts with
        | none => none
        | some (none, ts₂) => some (some left, ts₂)
        | some (some right, ts₂) => parseF n (.parseAndLoop (.andExpr left right)) ts₂
      else some (some left, ts)
  | n + 1, .parseUnary, ts =>
    -- _parse_unary: "-"-prefixed token of length > 1 becomes NotExpr
    match ts with
    | [] => some (none, [])
    | t :: rest =>
      if t.head? = some '-' ∧ 1 < t.length then
        -- the inner node is a dataclass instance, hence always truthy
        some (some (.notExpr (parseAtomFromToken (t.drop 1))), rest)
      else parseF n .parseAtom (t :: rest)
  | n + 1, .parseAtom, ts =>
    -- _parse_atom: parenthesized group, else one token via _parse_atom_from_token
    match ts with
    | [] => some (none, [])
    | t :: rest =>
      if t = ['('] then
        match parseF n .parseOr rest with
        | none => none
        | some (r, ts₁) =>
          match ts₁ with
          | u :: ts₂ => if u = [')'] then some (r, ts₂) else some (r, ts₁)
          | [] => some (r, [])
      else some (some (parseAtomFromToken t), rest)

/-- `QueryParser.parse`: `None` on an empty token list, else `_parse_or`,
run at the (sufficient) fuel `6 * length + 6`. -/
def parseTokens (ts : List Tok) : Option QueryExpr :=
  if ts.isEmpty then none
  else
    match parseF (6 * ts.length + 6) .parseOr ts with
    | some (r, _) => r
    | none => none

/-- `parse_query` of `query.py`: `None` for empty or whitespace-only input,
else tokenize and parse the stripped query. -/
def parse_query (query : String) : Option QueryExpr :=
  let stripped := pyStripList query.toList
  if stripped = [] then none
  else parseTokens (tokenize stripped)

/-- Python `value.replace(pat, repl)` for a single-character pattern:
replace every occurrence of `pat` by `repl`. -/
def replaceChar (pat : Char) (repl : List Char) : List Char → List Char
  | [] => []
  | c :: cs =>
    if c = pat then repl ++ replaceChar pat repl cs
    else c :: replaceChar pat repl cs

/-- `expr.value.replace('"', '\\"')` in `_query_to_selector`: escape each
literal double-quote character. -/
def escapeQuotes (s : String) : String :=
  String.mk (replaceChar '"' ['\\', '"'] s.toList)

/-- `AppSheetProvider._query_to_selector` on a well-typed AST (the five
dataclass branches; the `raise` branch is unreachable for these inputs and
is modelled separately on `DynExpr`). -/
def queryToSelector : QueryExpr → String
  | .textSearch v =>
    "CONTAINS(CONCATENATE([Title], \" \", [Content]), \"" ++ escapeQuotes v ++ "\")"
  | .labelFilter v =>
    "CONTAINS([Labels], \"" ++ escapeQuotes v ++ "\")"
  | .notExpr e =>
    "NOT(" ++ queryToSelector e ++ ")"
  | .andExpr l r =>
    "AND(" ++ queryToSelector l ++ ", " ++ queryToSelector r ++ ")"
  | .orExpr l r =>
    "OR(" ++ queryToSelector l ++ ", " ++ queryToSelector r ++ ")"

/-- The values a dynamically-typed caller could pass to
`_query_to_selector`: the five known dataclasses, or any other runtime
value, represented by its type name. -/
inductive DynExpr where
  | textSearch (value : String)
  | labelFilter (value : String)
  | notExpr (expr : DynExpr)
  | andExpr (left : DynExpr) (right : DynExpr)
  | orExpr (left : DynExpr) (right : DynExpr)
  | foreign (typeName : String)
deriving Repr, DecidableEq

/-- A well-typed AST viewed as a dynamic value. -/
def toDyn : QueryExpr → DynExpr
  | .textSearch v => .textSearch v
  | .labelFilter v => .labelFilter v
  | .notExpr e => .notExpr (toDyn e)
  | .andExpr l r => .andExpr (toDyn l) (toDyn r)
  | .orExpr l r => .orExpr (toDyn l) (toDyn r)

/-- `AppSheetProvider._query_to_selector` including its `else: raise
ValueError(...)` branch; `Except.error` models the raised exception, which
propagates out of the recursive calls. -/
def queryToSelectorDyn : DynExpr → Except String String
  | .textSearch v =>
    .ok ("CONTAINS(CONCATENATE([Title], \" \", [Content]), \"" ++ escapeQuotes v ++ "\")")
  | .labelFilter v =>
    .ok ("CONTAINS([Labels], \"" ++ escapeQuotes v ++ "\")")
  | .notExpr e => do
    let inner ← queryToSelectorDyn e
    .ok ("NOT(" ++ inner ++ ")")
  | .andExpr l r => do
    let a ← queryToSelectorDyn l
    let b ← queryToSelectorDyn r
    .ok ("AND(" ++ a ++ ", " ++ b ++ ")")
  | .orExpr l r => do
    let a ← queryToSelectorDyn l
    let b ← queryToSelectorDyn r
    .ok ("OR(" ++ a ++ ", " ++ b ++ ")")
  | .foreign typeName =>
    .error ("Unknown expression type: " ++ typeName)

/-- Python `str.capitalize()`: first character uppercased, the rest
lowercased (ASCII). -/
def pyCapitalize (s : String) : String :=
  match s.toList with
  | [] => ""
  | c :: cs => String.mk (Char.toUpper c :: cs.map Char.toLower)

/-- The `OrderBy` wrapper built in `AppSheetProvider.list`:
`desc = sort.startswith("-")`, `field = sort.lstrip("-").capitalize()`. -/
def orderByClause (base : String) (sortSpec : String) : String :=
  let desc := sortSpec.toList.head? = some '-'
  let field := pyCapitalize (String.mk (sortSpec.toList.dropWhile (· == '-')))
  "OrderBy(" ++ base ++ ", [" ++ field ++ "], " ++ (if desc then "TRUE" else "FALSE") ++ ")"

/-- Python truthiness of an optional string (`None` and `""` are falsy). -/
def pyTruthy : Option String → Bool
  | none => false
  | some s => !s.isEmpty

/-- The selector-building fragment of `AppSheetProvider.list` (lines
101-118): `if query: ... elif sort: ...`; `none` models `selector = None`
(no `Selector` property sent). -/
def buildSelector (tableName : String) (query : Option String) (sort : Option String) :
    Option String :=
  if pyTruthy query then
    match parse_query (query.getD "") with
    | some ast =>
      let condition := queryToSelector ast
      let selector := "Filter(" ++ tableName ++ ", " ++ condition ++ ")"
      if pyTruthy sort then some (orderByClause selector (sort.getD ""))
      else some selector
    | none => none
  else if pyTruthy sort then some (orderByClause tableName (sort.getD ""))
  else none

/-- Tree height of a query AST: leaves have depth 1. -/
def depthQ : QueryExpr → Nat
  | .textSearch _ => 1
  | .labelFilter _ => 1
  | .notExpr e => depthQ e + 1
  | .andExpr l r => max (depthQ l) (depthQ r) + 1
  | .orExpr l r => max (depthQ l) (depthQ r) + 1

/-- Total number of characters held in a token list. -/
def totLen (ts : List Tok) : Nat := (ts.map List.length).sum

example : parse_query "" = none := by decide
example : parse_query "   " = none := by decide
example : parse_query "meeting" = some (.textSearch "meeting") := by decide
example : parse_query "label:work" = some (.labelFilter "work") := by decide
example : parse_query "meeting project" =
    some (.andExpr (.textSearch "meeting") (.textSearch "project")) := by decide
example : parse_query "-label:archived" =
    some (.notExpr (.labelFilter "archived")) := by decide
example : parse_query "label:work OR label:personal" =
    some (.orExpr (.labelFilter "work") (.labelFilter "personal")) := by decide
example : parse_query "meeting label:work OR label:home" =
    some (.orExpr (.andExpr (.textSearch "meeting") (.labelFilter "work"))
      (.labelFilter "home")) := by decide
example : parse_query "\"exact phrase\"" = some (.textSearch "exact phrase") := by decide
example : parse_query "\"exact phrase" = some (.textSearch "exact phrase") := by decide
example : parse_query "(" = none := by decide
example : parse_query "()" = some (.textSearch ")") := by decide
example : parse_query "label:" = some (.labelFilter "") := by decide
example : parse_query "-" = some (.textSearch "-") := by decide
example : parse_query "(label:work OR label:home) meeting" =
    some (.andExpr (.orExpr (.labelFilter "work") (.labelFilter "home"))
      (.textSearch "meeting")) := by decide
example : queryToSelector (.labelFilter "work") = "CONTAINS([Labels], \"work\")" := by decide
example : queryToSelector (.textSearch "a\"b") =
    "CONTAINS(CONCATENATE([Title], \" \", [Content]), \"a\\\"b\")" := by decide
example : buildSelector "Note" none (some "-modified") =
    some "OrderBy(Note, [Modified], TRUE)" := by decide
example : buildSelector "Note" none (some "modified") =
    some "OrderBy(Note, [Modified], FALSE)" := by decide
example : buildSelector "Note" (some " ") (some "-modified") = none := by decide
example : buildSelector "Note" (some "meeting") none =
    some "Filter(Note, CONTAINS(CONCATENATE([Title], \" \", [Content]), \"meeting\"))" := by
  decide
example : buildSelector "Note" (some "meeting") (some "-modified") =
    some "OrderBy(Filter(Note, CONTAINS(CONCATENATE([Title], \" \", [Content]), \"meeting\")), [Modified], TRUE)" := by
  decide


/-! ### Tokenizer lemmas -/

theorem takeWhile_length_le (p : Char → Bool) (l : List Char) :
    (l.takeWhile p).length ≤ l.length :=
  (List.takeWhile_sublist p).length_le

/-- The components of a `wordChar` character. -/
theorem wordChar_spec (c : Char) (hw : wordChar c = true) :
    pyIsSpace c = false ∧ ¬(c = '(') ∧ ¬(c = ')') ∧ ¬(c = '"') := by
  simp only [wordChar, Bool.and_eq_true, Bool.not_eq_true', bne_iff_ne, ne_eq] at hw
  exact ⟨hw.1.1.1, hw.1.1.2, hw.1.2, hw.2⟩

/-- Step equation: whitespace is skipped. -/
theorem tokenizeF_space (n : Nat) (c : Char) (cs : List Char) (hs : pyIsSpace c = true) :
    tokenizeF (n + 1) (c :: cs) = tokenizeF n cs := by
  simp [tokenizeF, hs]

/-- Step equation: a quoted-string token. -/
theorem tokenizeF_quote (n : Nat) (cs : List Char) :
    tokenizeF (n + 1) ('"' :: cs) =
      (tokenizeF n ((cs.drop (cs.takeWhile notQuote).length).drop 1)).map
        (fun ts =>
          (if (cs.drop (cs.takeWhile notQuote).length).isEmpty
           then '"' :: cs.takeWhile notQuote
           else '"' :: cs.takeWhile notQuote ++ ['"']) :: ts) := by
  simp [tokenizeF, pyIsSpace]

/-- Step equation: a parenthesis token. -/
theorem tokenizeF_paren (n : Nat) (c : Char) (cs : List Char) (hp : c = '(' ∨ c = ')') :
    tokenizeF (n + 1) (c :: cs) = (tokenizeF n cs).map (fun ts => [c] :: ts) := by
  rcases hp with h | h <;> subst h <;> simp [tokenizeF, pyIsSpace]

/-- Step equation: a word token. -/
theorem tokenizeF_word (n : Nat) (c : Char) (cs : List Char) (hw : wordChar c = true) :
    tokenizeF (n + 1) (c :: cs) =
      (tokenizeF n ((c :: cs).drop ((c :: cs).takeWhile wordChar).length)).map
        (fun ts => (c :: cs).takeWhile wordChar :: ts) := by
  obtain ⟨hs, h2, h3, h1⟩ := wordChar_spec c hw
  simp only [tokenizeF]
  rw [if_neg (by simp [hs]), if_neg h1, if_neg (by simp [h2, h3])]

/-- A word token is the consed form of the tail scan. -/
theorem takeWhile_wordChar_cons (c : Char) (cs : List Char) (hw : wordChar c = true) :
    (c :: cs).takeWhile wordChar = c :: cs.takeWhile wordChar := by
  rw [List.takeWhile_cons, if_pos hw]

/-- Fuel `length + 1` is always sufficient for the tokenizer: every
iteration strictly advances the scan position. -/
theorem tokenizeF_isSome : ∀ (n : Nat) (cs : List Char), cs.length + 1 ≤ n →
    (tokenizeF n cs).isSome = true := by
  intro n
  induction n with
  | zero => intro cs h; omega
  | succ n ih =>
    intro cs h
    match cs with
    | [] => rfl
    | c :: cs =>
      have hlen : cs.length + 1 ≤ n := by simp at h; omega
      by_cases hs : pyIsSpace c
      · rw [tokenizeF_space n c cs hs]; exact ih cs hlen
      · by_cases hq : c = '"'
        · subst hq
          rw [tokenizeF_quote, Option.isSome_map']
          exact ih _ (by simp [List.length_drop]; omega)
        · by_cases hp : c = '(' ∨ c = ')'
          · rw [tokenizeF_paren n c cs hp, Option.isSome_map']
            exact ih cs hlen
          · have hw : wordChar c = true := by
              push_neg at hp
              have hs' : pyIsSpace c = false := by simpa using hs
              simp only [wordChar, Bool.and_eq_true, Bool.not_eq_true', bne_iff_ne, ne_eq]
              exact ⟨⟨⟨hs', hp.1⟩, hp.2⟩, hq⟩
            rw [tokenizeF_word n c cs hw, Option.isSome_map']
            apply ih
            rw [takeWhile_wordChar_cons c cs hw]
            simp only [List.length_cons, List.drop_succ_cons, List.length_drop]
            have := takeWhile_length_le wordChar cs
            omega

theorem totLen_cons (t : Tok) (ts : List Tok) : totLen (t :: ts) = t.length + totLen ts := by
  simp [totLen]

theorem totLen_suffix {ts ts' : List Tok} (h : ts' <:+ ts) : totLen ts' ≤ totLen ts := by
  obtain ⟨pre, rfl⟩ := h
  simp [totLen, List.sum_append]

/-- Every token produced by the tokenizer is a non-empty string. -/
theorem tokenizeF_ne_nil : ∀ (n : Nat) (cs : List Char) (ts : List Tok),
    tokenizeF n cs = some ts → ∀ t ∈ ts, t ≠ [] := by
  intro n
  induction n with
  | zero => intro cs ts h; simp [tokenizeF] at h
  | succ n ih =>
    intro cs ts h t ht
    match cs with
    | [] =>
      simp only [tokenizeF, Option.some_inj] at h
      subst h; simp at ht
    | c :: cs =>
      by_cases hs : pyIsSpace c
      · rw [tokenizeF_space n c cs hs] at h
        exact ih cs ts h t ht
      · by_cases hq : c = '"'
        · subst hq
          rw [tokenizeF_quote] at h
          obtain ⟨ts₀, h₀, hts⟩ := Option.map_eq_some'.mp h
          subst hts
          rcases List.mem_cons.mp ht with rfl | ht
          · split <;> simp
          · exact ih _ ts₀ h₀ t ht
        · by_cases hp : c = '(' ∨ c = ')'
          · rw [tokenizeF_paren n c cs hp] at h
            obtain ⟨ts₀, h₀, hts⟩ := Option.map_eq_some'.mp h
            subst hts
            rcases List.mem_cons.mp ht with rfl | ht
            · simp
            · exact ih cs ts₀ h₀ t ht
          · have hw : wordChar c = true := by
              push_neg at hp
              have hs' : pyIsSpace c = false := by simpa using hs
              simp only [wordChar, Bool.and_eq_true, Bool.not_eq_true', bne_iff_ne, ne_eq]
              exact ⟨⟨⟨hs', hp.1⟩, hp.2⟩, hq⟩
            rw [tokenizeF_word n c cs hw] at h
            obtain ⟨ts₀, h₀, hts⟩ := Option.map_eq_some'.mp h
            subst hts
            rcases List.mem_cons.mp ht with rfl | ht
            · rw [takeWhile_wordChar_cons c cs hw]; simp
            · exact ih _ ts₀ h₀ t ht

/-- The characters held in the tokens never exceed the scanned characters. -/
theorem tokenizeF_totLen_le : ∀ (n : Nat) (cs : List Char) (ts : List Tok),
    tokenizeF n cs = some ts → totLen ts ≤ cs.length := by
  intro n
  induction n with
  | zero => intro cs ts h; simp [tokenizeF] at h
  | succ n ih =>
    intro cs ts h
    match cs with
    | [] =>
      simp only [tokenizeF, Option.some_inj] at h
      subst h; simp [totLen]
    | c :: cs =>
      by_cases hs : pyIsSpace c
      · rw [tokenizeF_space n c cs hs] at h
        exact le_trans (ih cs ts h) (by simp)
      · by_cases hq : c = '"'
        · subst hq
          rw [tokenizeF_quote] at h
          obtain ⟨ts₀, h₀, hts⟩ := Option.map_eq_some'.mp h
          subst hts
          have hk := takeWhile_length_le notQuote cs
          have hIH := ih _ ts₀ h₀
          rw [List.length_drop, List.length_drop] at hIH
          rw [totLen_cons]
          by_cases he : (cs.drop (cs.takeWhile notQuote).length).isEmpty
          · rw [if_pos he]
            have : cs.length - (cs.takeWhile notQuote).length = 0 := by
              rw [← List.length_drop]
              simpa using List.isEmpty_iff_length_eq_zero.mp he
            simp only [List.length_cons]
            omega
          · rw [if_neg he]
            have hne : cs.drop (cs.takeWhile notQuote).length ≠ [] := by
              intro hc; rw [hc] at he; simp at he
            have : 0 < cs.length - (cs.takeWhile notQuote).length := by
              rw [← List.length_drop]
              exact List.length_pos.mpr hne
            simp only [List.length_cons, List.length_append, List.length_nil]
            omega
        · by_cases hp : c = '(' ∨ c = ')'
          · rw [tokenizeF_paren n c cs hp] at h
            obtain ⟨ts₀, h₀, hts⟩ := Option.map_eq_some'.mp h
            subst hts
            have hIH := ih cs ts₀ h₀
            rw [totLen_cons]
            simp only [List.length_cons, List.length_nil]
            omega
          · have hw : wordChar c = true := by
              push_neg at hp
              have hs' : pyIsSpace c = false := by simpa using hs
              simp only [wordChar, Bool.and_eq_true, Bool.not_eq_true', bne_iff_ne, ne_eq]
              exact ⟨⟨⟨hs', hp.1⟩, hp.2⟩, hq⟩
            rw [tokenizeF_word n c cs hw] at h
            obtain ⟨ts₀, h₀, hts⟩ := Option.map_eq_some'.mp h
            subst hts
            have hIH := ih _ ts₀ h₀
            rw [takeWhile_wordChar_cons c cs hw] at h₀ hIH ⊢
            have hk := takeWhile_length_le wordChar cs
            rw [totLen_cons]
            simp only [List.length_cons, List.drop_succ_cons, List.length_drop] at hIH ⊢
            omega

/-- The tokenizer at its standard fuel returns exactly `tokenize l`. -/
theorem tokenize_eq_some (l : List Char) : tokenizeF (l.length + 1) l = some (tokenize l) := by
  obtain ⟨ts, hts⟩ := Option.isSome_iff_exists.mp (tokenizeF_isSome (l.length + 1) l le_rfl)
  rw [tokenize, hts]
  rfl

theorem tokenize_ne_nil (l : List Char) : ∀ t ∈ tokenize l, t ≠ [] :=
  tokenizeF_ne_nil (l.length + 1) l (tokenize l) (tokenize_eq_some l)

theorem tokenize_totLen_le (l : List Char) : totLen (tokenize l) ≤ l.length :=
  tokenizeF_totLen_le (l.length + 1) l (tokenize l) (tokenize_eq_some l)

/-! ### Parser structural lemmas -/

/-- The parser only ever advances `token_pos`: the remaining tokens form a
suffix of the input tokens. -/
theorem parseF_suffix : ∀ (n : Nat) (m : PMode) (ts : List Tok) (r : Option QueryExpr)
    (ts' : List Tok), parseF n m ts = some (r, ts') → ts' <:+ ts := by
  intro n
  induction n with
  | zero => intro m ts r ts' h; simp [parseF] at h
  | succ n ih =>
    intro m ts r ts' h
    cases m with
    | parseOr =>
      simp only [parseF] at h
      split at h
      · simp at h
      · next ts₁ heq =>
        simp only [Option.some_inj, Prod.mk.injEq] at h
        obtain ⟨rfl, rfl⟩ := h
        exact ih _ _ _ _ heq
      · next left ts₁ heq =>
        exact (ih _ _ _ _ h).trans (ih _ _ _ _ heq)
    | parseOrLoop left =>
      match ts with
      | [] =>
        simp only [parseF, Option.some_inj, Prod.mk.injEq] at h
        obtain ⟨rfl, rfl⟩ := h
        exact List.suffix_rfl
      | t :: rest =>
        simp only [parseF] at h
        split at h
        · split at h
          · simp at h
          · next ts₂ heq =>
            simp only [Option.some_inj, Prod.mk.injEq] at h
            obtain ⟨rfl, rfl⟩ := h
            exact (ih _ _ _ _ heq).trans (List.suffix_cons t rest)
          · next right ts₂ heq =>
            exact (ih _ _ _ _ h).trans
              ((ih _ _ _ _ heq).trans (List.suffix_cons t rest))
        · simp only [Option.some_inj, Prod.mk.injEq] at h
          obtain ⟨rfl, rfl⟩ := h
          exact List.suffix_rfl
    | parseAnd =>
      simp only [parseF] at h
      split at h
      · simp at h
      · next ts₁ heq =>
        simp only [Option.some_inj, Prod.mk.injEq] at h
        obtain ⟨rfl, rfl⟩ := h
        exact ih _ _ _ _ heq
      · next left ts₁ heq =>
        exact (ih _ _ _ _ h).trans (ih _ _ _ _ heq)
    | parseAndLoop left =>
      match ts with
      | [] =>
        simp only [parseF, Option.some_inj, Prod.mk.injEq] at h
        obtain ⟨rfl, rfl⟩ := h
        exact List.suffix_rfl
      | t :: rest =>
        simp only [parseF] at h
        split at h
        · split at h
          · simp at h
          · next ts₂ heq =>
            simp only [Option.some_inj, Prod.mk.injEq] at h
            obtain ⟨rfl, rfl⟩ := h
            exact ih _ _ _ _ heq
          · next right ts₂ heq =>
            exact (ih _ _ _ _ h).trans (ih _ _ _ _ heq)
        · simp only [Option.some_inj, Prod.mk.injEq] at h
          obtain ⟨rfl, rfl⟩ := h
          exact List.suffix_rfl
    | parseUnary =>
      match ts with
      | [] =>
        simp only [parseF, Option.some_inj, Prod.mk.injEq] at h
        obtain ⟨rfl, rfl⟩ := h
        exact List.suffix_rfl
      | t :: rest =>
        simp only [parseF] at h
        split at h
        · simp only [Option.some_inj, Prod.mk.injEq] at h
          obtain ⟨rfl, rfl⟩ := h
          exact List.suffix_cons t rest
        · exact ih _ _ _ _ h
    | parseAtom =>
      match ts with
      | [] =>
        simp only [parseF, Option.some_inj, Prod.mk.injEq] at h
        obtain ⟨rfl, rfl⟩ := h
        exact List.suffix_rfl
      | t :: rest =>
        simp only [parseF] at h
        split at h
        · split at h
          · simp at h
          · next r₀ ts₁ heq =>
            split at h
            · split at h
              · next u ts₂ hu =>
                simp only [Option.some_inj, Prod.mk.injEq] at h
                obtain ⟨rfl, rfl⟩ := h
                refine List.IsSuffix.trans ?_ ((ih _ _ _ _ heq).trans (List.suffix_cons t rest))
                exact (List.suffix_cons u ts₂)
              · simp only [Option.some_inj, Prod.mk.injEq] at h
                obtain ⟨rfl, rfl⟩ := h
                exact (ih _ _ _ _ heq).trans (List.suffix_cons t rest)
            · simp only [Option.some_inj, Prod.mk.injEq] at h
              obtain ⟨rfl, rfl⟩ := h
              exact List.nil_suffix
        · simp only [Option.some_inj, Prod.mk.injEq] at h
          obtain ⟨rfl, rfl⟩ := h
          exact List.suffix_cons t rest

/-- The two `while` loops always return an expression (their accumulated
left operand at worst). -/
theorem parseF_loop_some : ∀ (n : Nat) (left : QueryExpr) (ts : List Tok)
    (r : Option QueryExpr) (ts' : List Tok),
    (parseF n (.parseOrLoop left) ts = some (r, ts') → r.isSome = true) ∧
    (parseF n (.parseAndLoop left) ts = some (r, ts') → r.isSome = true) := by
  intro n
  induction n with
  | zero =>
    intro left ts r ts'
    constructor <;> { intro h; simp [parseF] at h }
  | succ n ih =>
    intro left ts r ts'
    constructor
    · intro h
      match ts with
      | [] =>
        simp only [parseF, Option.some_inj, Prod.mk.injEq] at h
        obtain ⟨rfl, rfl⟩ := h; rfl
      | t :: rest =>
        simp only [parseF] at h
        split at h
        · split at h
          · simp at h
          · next ts₂ heq =>
            simp only [Option.some_inj, Prod.mk.injEq] at h
            obtain ⟨rfl, rfl⟩ := h; rfl
          · next right ts₂ heq => exact (ih _ _ _ _).1 h
        · simp only [Option.some_inj, Prod.mk.injEq] at h
          obtain ⟨rfl, rfl⟩ := h; rfl
    · intro h
      match ts with
      | [] =>
        simp only [parseF, Option.some_inj, Prod.mk.injEq] at h
        obtain ⟨rfl, rfl⟩ := h; rfl
      | t :: rest =>
        simp only [parseF] at h
        split at h
        · split at h
          · simp at h
          · next ts₂ heq =>
            simp only [Option.some_inj, Prod.mk.injEq] at h
            obtain ⟨rfl, rfl⟩ := h; rfl
          · next right ts₂ heq => exact (ih _ _ _ _).2 h
        · simp only [Option.some_inj, Prod.mk.injEq] at h
          obtain ⟨rfl, rfl⟩ := h; rfl

/-- A successful parse of any of the four nonterminals consumes at least
one token. -/
theorem parseF_consume : ∀ (n : Nat) (ts : List Tok) (e : QueryExpr) (ts' : List Tok),
    (parseF n .parseOr ts = some (some e, ts') → ts'.length < ts.length) ∧
    (parseF n .parseAnd ts = some (some e, ts') → ts'.length < ts.length) ∧
    (parseF n .parseUnary ts = some (some e, ts') → ts'.length < ts.length) ∧
    (parseF n .parseAtom ts = some (some e, ts') → ts'.length < ts.length) := by
  intro n
  induction n with
  | zero =>
    intro ts e ts'
    refine ⟨?_, ?_, ?_, ?_⟩ <;> { intro h; simp [parseF] at h }
  | succ n ih =>
    intro ts e ts'
    refine ⟨?_, ?_, ?_, ?_⟩
    · intro h
      simp only [parseF] at h
      split at h
      · simp at h
      · next ts₁ heq => simp at h
      · next left ts₁ heq =>
        have h₁ : ts₁.length < ts.length := (ih ts left ts₁).2.1 heq
        have h₂ : ts' <:+ ts₁ := parseF_suffix n _ ts₁ (some e) ts' h
        exact lt_of_le_of_lt h₂.length_le h₁
    · intro h
      simp only [parseF] at h
      split at h
      · simp at h
      · next ts₁ heq => simp at h
      · next left ts₁ heq =>
        have h₁ : ts₁.length < ts.length := (ih ts left ts₁).2.2.1 heq
        have h₂ : ts' <:+ ts₁ := parseF_suffix n _ ts₁ (some e) ts' h
        exact lt_of_le_of_lt h₂.length_le h₁
    · intro h
      match ts with
      | [] => simp [parseF] at h
      | t :: rest =>
        simp only [parseF] at h
        split at h
        · simp only [Option.some_inj, Prod.mk.injEq] at h
          obtain ⟨-, rfl⟩ := h
          simp
        · exact (ih (t :: rest) e ts').2.2.2 h
    · intro h
      match ts with
      | [] => simp [parseF] at h
      | t :: rest =>
        simp only [parseF] at h
        split at h
        · split at h
          · simp at h
          · next r₀ ts₁ heq =>
            have hsuf : ts₁ <:+ rest := parseF_suffix n _ rest r₀ ts₁ heq
            have h₁ : ts₁.length ≤ rest.length := hsuf.length_le
            split at h
            · split at h
              · next u ts₂ hu =>
                simp only [Option.some_inj, Prod.mk.injEq] at h
                obtain ⟨-, rfl⟩ := h
                simp only [List.length_cons] at h₁ ⊢
                omega
              · simp only [Option.some_inj, Prod.mk.injEq] at h
                obtain ⟨-, rfl⟩ := h
                simp only [List.length_cons] at h₁ ⊢
                omega
            · simp only [Option.some_inj, Prod.mk.injEq] at h
              obtain ⟨-, rfl⟩ := h
              simp
        · simp only [Option.some_inj, Prod.mk.injEq] at h
          obtain ⟨-, rfl⟩ := h
          simp

/-- A rank for each parser routine: when the token list does not shrink,
the rank does. -/
def PMode.rank : PMode → Nat
  | .parseOr => 5
  | .parseOrLoop _ => 4
  | .parseAnd => 3
  | .parseAndLoop _ => 2
  | .parseUnary => 1
  | .parseAtom => 0

/-- Linear fuel suffices for the recursive-descent parser. -/
theorem parseF_isSome : ∀ (n : Nat) (m : PMode) (ts : List Tok),
    6 * ts.length + m.rank + 1 ≤ n → (parseF n m ts).isSome = true := by
  intro n
  induction n with
  | zero => intro m ts h; omega
  | succ n ih =>
    intro m ts h
    cases m with
    | parseOr =>
      simp only [parseF]
      have h₁ : (parseF n .parseAnd ts).isSome = true :=
        ih .parseAnd ts (by simp only [PMode.rank] at h ⊢; omega)
      obtain ⟨⟨r₁, ts₁⟩, heq⟩ := Option.isSome_iff_exists.mp h₁
      rw [heq]
      cases r₁ with
      | none => rfl
      | some left =>
        show (parseF n (.parseOrLoop left) ts₁).isSome = true
        have hlt : ts₁.length < ts.length := (parseF_consume n ts left ts₁).2.1 heq
        exact ih _ ts₁ (by simp only [PMode.rank] at h ⊢; omega)
    | parseOrLoop left =>
      match ts with
      | [] => rfl
      | t :: rest =>
        simp only [parseF]
        split
        · have h₂ : (parseF n .parseAnd rest).isSome = true :=
            ih .parseAnd rest
              (by simp only [PMode.rank, List.length_cons] at h ⊢; omega)
          obtain ⟨⟨r₂, ts₂⟩, heq⟩ := Option.isSome_iff_exists.mp h₂
          rw [heq]
          cases r₂ with
          | none => rfl
          | some right =>
            show (parseF n (.parseOrLoop (.orExpr left right)) ts₂).isSome = true
            have hle : ts₂.length ≤ rest.length :=
              (parseF_suffix n _ rest (some right) ts₂ heq).length_le
            exact ih _ ts₂
              (by simp only [PMode.rank, List.length_cons] at h ⊢; omega)
        · rfl
    | parseAnd =>
      simp only [parseF]
      have h₁ : (parseF n .parseUnary ts).isSome = true :=
        ih .parseUnary ts (by simp only [PMode.rank] at h ⊢; omega)
      obtain ⟨⟨r₁, ts₁⟩, heq⟩ := Option.isSome_iff_exists.mp h₁
      rw [heq]
      cases r₁ with
      | none => rfl
      | some left =>
        show (parseF n (.parseAndLoop left) ts₁).isSome = true
        have hlt : ts₁.length < ts.length := (parseF_consume n ts left ts₁).2.2.1 heq
        exact ih _ ts₁ (by simp only [PMode.rank] at h ⊢; omega)
    | parseAndLoop left =>
      match ts with
      | [] => rfl
      | t :: rest =>
        simp only [parseF]
        split
        · have h₂ : (parseF n .parseUnary (t :: rest)).isSome = true :=
            ih .parseUnary (t :: rest)
              (by simp only [PMode.rank, List.length_cons] at h ⊢; omega)
          obtain ⟨⟨r₂, ts₂⟩, heq⟩ := Option.isSome_iff_exists.mp h₂
          rw [heq]
          cases r₂ with
          | none => rfl
          | some right =>
            show (parseF n (.parseAndLoop (.andExpr left right)) ts₂).isSome = true
            have hlt : ts₂.length < (t :: rest).length :=
              (parseF_consume n (t :: rest) right ts₂).2.2.1 heq
            exact ih _ ts₂
              (by simp only [PMode.rank, List.length_cons] at h hlt ⊢; omega)
        · rfl
    | parseUnary =>
      match ts with
      | [] => rfl
      | t :: rest =>
        simp only [parseF]
        split
        · rfl
        · exact ih .parseAtom (t :: rest)
            (by simp only [PMode.rank, List.length_cons] at h ⊢; omega)
    | parseAtom =>
      match ts with
      | [] => rfl
      | t :: rest =>
        simp only [parseF]
        split
        · have h₂ : (parseF n .parseOr rest).isSome = true :=
            ih .parseOr rest
              (by simp only [PMode.rank, List.length_cons] at h ⊢; omega)
          obtain ⟨⟨r₀, ts₁⟩, heq⟩ := Option.isSome_iff_exists.mp h₂
          rw [heq]
          cases ts₁ with
          | nil => rfl
          | cons u ts₂ =>
            show (if u = [')'] then some (r₀, ts₂) else some (r₀, u :: ts₂)).isSome = true
            split <;> rfl
        · rfl

/-- If a nonterminal yields no expression, every input token was `(`. -/
theorem parseF_none_parens : ∀ (n : Nat) (ts : List Tok) (ts' : List Tok),
    (parseF n .parseOr ts = some (none, ts') → ∀ t ∈ ts, t = ['(']) ∧
    (parseF n .parseAnd ts = some (none, ts') → ∀ t ∈ ts, t = ['(']) ∧
    (parseF n .parseUnary ts = some (none, ts') → ∀ t ∈ ts, t = ['(']) ∧
    (parseF n .parseAtom ts = some (none, ts') → ∀ t ∈ ts, t = ['(']) := by
  intro n
  induction n with
  | zero =>
    intro ts ts'
    refine ⟨?_, ?_, ?_, ?_⟩ <;> { intro h; simp [parseF] at h }
  | succ n ih =>
    intro ts ts'
    refine ⟨?_, ?_, ?_, ?_⟩
    · intro h
      simp only [parseF] at h
      split at h
      · simp at h
      · next ts₁ heq =>
        simp only [Option.some_inj, Prod.mk.injEq] at h
        obtain ⟨-, rfl⟩ := h
        exact (ih ts ts₁).2.1 heq
      · next left ts₁ heq =>
        have := (parseF_loop_some n left ts₁ none ts').1 h
        simp at this
    · intro h
      simp only [parseF] at h
      split at h
      · simp at h
      · next ts₁ heq =>
        simp only [Option.some_inj, Prod.mk.injEq] at h
        obtain ⟨-, rfl⟩ := h
        exact (ih ts ts₁).2.2.1 heq
      · next left ts₁ heq =>
        have := (parseF_loop_some n left ts₁ none ts').2 h
        simp at this
    · intro h
      match ts with
      | [] => intro t ht; simp at ht
      | t :: rest =>
        simp only [parseF] at h
        split at h
        · simp at h
        · exact (ih (t :: rest) ts').2.2.2 h
    · intro h
      match ts with
      | [] => intro t ht; simp at ht
      | t :: rest =>
        simp only [parseF] at h
        split at h
        · next hpar =>
          split at h
          · simp at h
          · next r₀ ts₁ heq =>
            split at h
            · split at h
              · next u ts₂ hu =>
                simp only [Option.some_inj, Prod.mk.injEq] at h
                obtain ⟨rfl, rfl⟩ := h
                intro x hx
                rcases List.mem_cons.mp hx with rfl | hx
                · exact hpar
                · exact (ih rest _).1 heq x hx
              · simp only [Option.some_inj, Prod.mk.injEq] at h
                obtain ⟨rfl, rfl⟩ := h
                intro x hx
                rcases List.mem_cons.mp hx with rfl | hx
                · exact hpar
                · exact (ih rest _).1 heq x hx
            · simp only [Option.some_inj, Prod.mk.injEq] at h
              obtain ⟨rfl, rfl⟩ := h
              intro x hx
              rcases List.mem_cons.mp hx with rfl | hx
              · exact hpar
              · exact (ih rest _).1 heq x hx
        · simp at h

/-- Conversely, on a token list consisting only of `(` every nonterminal
yields no expression (given any fuel at which it completes). -/
theorem parseF_parens_none : ∀ (n : Nat) (ts : List Tok), (∀ t ∈ ts, t = ['(']) →
    (parseF n .parseOr ts = none ∨ parseF n .parseOr ts = some (none, [])) ∧
    (parseF n .parseAnd ts = none ∨ parseF n .parseAnd ts = some (none, [])) ∧
    (parseF n .parseUnary ts = none ∨ parseF n .parseUnary ts = some (none, [])) ∧
    (parseF n .parseAtom ts = none ∨ parseF n .parseAtom ts = some (none, [])) := by
  intro n
  induction n with
  | zero =>
    intro ts hp
    exact ⟨Or.inl rfl, Or.inl rfl, Or.inl rfl, Or.inl rfl⟩
  | succ n ih =>
    intro ts hp
    refine ⟨?_, ?_, ?_, ?_⟩
    · rcases (ih ts hp).2.1 with h | h
      · left; simp only [parseF]; rw [h]
      · right; simp only [parseF]; rw [h]
    · rcases (ih ts hp).2.2.1 with h | h
      · left; simp only [parseF]; rw [h]
      · right; simp only [parseF]; rw [h]
    · match ts with
      | [] => right; rfl
      | t :: rest =>
        have hpt : t = ['('] := hp t (by simp)
        have hcond : ¬(t.head? = some '-' ∧ 1 < t.length) := by
          subst hpt; simp
        rcases (ih (t :: rest) hp).2.2.2 with h | h
        · left; simp only [parseF]; rw [if_neg hcond]; exact h
        · right; simp only [parseF]; rw [if_neg hcond]; exact h
    · match ts with
      | [] => right; rfl
      | t :: rest =>
        have hpt : t = ['('] := hp t (by simp)
        have hrest : ∀ u ∈ rest, u = ['('] := fun u hu => hp u (by simp [hu])
        rcases (ih rest hrest).1 with h | h
        · left; simp only [parseF]; rw [if_pos hpt, h]
        · right; simp only [parseF]; rw [if_pos hpt, h]

theorem depthQ_pos (e : QueryExpr) : 1 ≤ depthQ e := by
  cases e <;> simp [depthQ]

theorem depthQ_atomFromToken (t : Tok) : depthQ (parseAtomFromToken t) = 1 := by
  simp only [parseAtomFromToken]
  split
  · rfl
  · split <;> rfl

/-- Depth bound: a parsed expression is no deeper than the number of
characters consumed from the token stream. -/
theorem parseF_depth : ∀ (n : Nat) (ts : List Tok), (∀ t ∈ ts, t ≠ []) →
    (∀ e ts', parseF n .parseOr ts = some (some e, ts') →
        depthQ e + totLen ts' ≤ totLen ts) ∧
    (∀ e ts', parseF n .parseAnd ts = some (some e, ts') →
        depthQ e + totLen ts' ≤ totLen ts) ∧
    (∀ e ts', parseF n .parseUnary ts = some (some e, ts') →
        depthQ e + totLen ts' ≤ totLen ts) ∧
    (∀ e ts', parseF n .parseAtom ts = some (some e, ts') →
        depthQ e + totLen ts' ≤ totLen ts) ∧
    (∀ left B e ts', depthQ left + totLen ts ≤ B →
        parseF n (.parseOrLoop left) ts = some (some e, ts') →
        depthQ e + totLen ts' ≤ B) ∧
    (∀ left B e ts', depthQ left + totLen ts ≤ B →
        parseF n (.parseAndLoop left) ts = some (some e, ts') →
        depthQ e + totLen ts' ≤ B) := by
  intro n
  induction n with
  | zero =>
    intro ts hne
    refine ⟨?_, ?_, ?_, ?_, ?_, ?_⟩
    · intro e ts' h; simp [parseF] at h
    · intro e ts' h; simp [parseF] at h
    · intro e ts' h; simp [parseF] at h
    · intro e ts' h; simp [parseF] at h
    · intro left B e ts' hB h; simp [parseF] at h
    · intro left B e ts' hB h; simp [parseF] at h
  | succ n ih =>
    intro ts hne
    refine ⟨?_, ?_, ?_, ?_, ?_, ?_⟩
    · intro e ts' h
      simp only [parseF] at h
      split at h
      · simp at h
      · simp at h
      · next left ts₁ heq =>
        have hsuf : ts₁ <:+ ts := parseF_suffix n _ _ _ _ heq
        have hne₁ : ∀ t ∈ ts₁, t ≠ [] := fun t ht => hne t (hsuf.subset ht)
        have hleft := (ih ts hne).2.1 left ts₁ heq
        exact (ih ts₁ hne₁).2.2.2.2.1 left (totLen ts) e ts' hleft h
    · intro e ts' h
      simp only [parseF] at h
      split at h
      · simp at h
      · simp at h
      · next left ts₁ heq =>
        have hsuf : ts₁ <:+ ts := parseF_suffix n _ _ _ _ heq
        have hne₁ : ∀ t ∈ ts₁, t ≠ [] := fun t ht => hne t (hsuf.subset ht)
        have hleft := (ih ts hne).2.2.1 left ts₁ heq
        exact (ih ts₁ hne₁).2.2.2.2.2 left (totLen ts) e ts' hleft h
    · intro e ts' h
      match ts, hne with
      | [], _ => simp [parseF] at h
      | t :: rest, hne =>
        simp only [parseF] at h
        split at h
        · next hcond =>
          simp only [Option.some_inj, Prod.mk.injEq] at h
          obtain ⟨rfl, rfl⟩ := h
          rw [totLen_cons]
          simp only [depthQ, depthQ_atomFromToken]
          have hlen := hcond.2
          omega
        · exact (ih (t :: rest) hne).2.2.2.1 e ts' h
    · intro e ts' h
      match ts, hne with
      | [], _ => simp [parseF] at h
      | t :: rest, hne =>
        have hne_rest : ∀ u ∈ rest, u ≠ [] := fun u hu => hne u (List.mem_cons_of_mem t hu)
        simp only [parseF] at h
        split at h
        · next hpar =>
          split at h
          · simp at h
          · next r₀ ts₁ heq =>
            split at h
            · split at h
              · next u ts₂ hu =>
                simp only [Option.some_inj, Prod.mk.injEq] at h
                obtain ⟨rfl, rfl⟩ := h
                have hD := (ih rest hne_rest).1 e (u :: ts₂) heq
                rw [totLen_cons] at hD
                rw [totLen_cons]
                omega
              · simp only [Option.some_inj, Prod.mk.injEq] at h
                obtain ⟨rfl, rfl⟩ := h
                have hD := (ih rest hne_rest).1 e _ heq
                rw [totLen_cons] at hD
                rw [totLen_cons, totLen_cons]
                omega
            · simp only [Option.some_inj, Prod.mk.injEq] at h
              obtain ⟨rfl, rfl⟩ := h
              have hD := (ih rest hne_rest).1 e [] heq
              rw [totLen_cons]
              omega
        · simp only [Option.some_inj, Prod.mk.injEq] at h
          obtain ⟨rfl, rfl⟩ := h
          have ht : t ≠ [] := hne t (List.mem_cons_self t rest)
          have ht1 : 1 ≤ t.length := List.length_pos.mpr ht
          rw [totLen_cons, depthQ_atomFromToken]
          omega
    · intro left B e ts' hB h
      match ts, hne with
      | [], _ =>
        simp only [parseF, Option.some_inj, Prod.mk.injEq] at h
        obtain ⟨rfl, rfl⟩ := h
        exact hB
      | t :: rest, hne =>
        have hne_rest : ∀ u ∈ rest, u ≠ [] := fun u hu => hne u (List.mem_cons_of_mem t hu)
        simp only [parseF] at h
        split at h
        · next hcond =>
          have ht1 : 1 ≤ t.length := List.length_pos.mpr hcond.1
          split at h
          · simp at h
          · next ts₂ heq =>
            simp only [Option.some_inj, Prod.mk.injEq] at h
            obtain ⟨rfl, rfl⟩ := h
            have hle := totLen_suffix (parseF_suffix n _ _ _ _ heq)
            rw [totLen_cons] at hB
            omega
          · next right ts₂ heq =>
            have hD := (ih rest hne_rest).2.1 right ts₂ heq
            have hne₂ : ∀ u ∈ ts₂, u ≠ [] :=
              fun u hu => hne_rest u ((parseF_suffix n _ _ _ _ heq).subset hu)
            have hdl := depthQ_pos left
            have hdr := depthQ_pos right
            refine (ih ts₂ hne₂).2.2.2.2.1 (.orExpr left right) B e ts' ?_ h
            rw [totLen_cons] at hB
            simp only [depthQ]
            rcases Nat.le_total (depthQ left) (depthQ right) with hm | hm
            · rw [Nat.max_eq_right hm]; omega
            · rw [Nat.max_eq_left hm]; omega
        · simp only [Option.some_inj, Prod.mk.injEq] at h
          obtain ⟨rfl, rfl⟩ := h
          exact hB
    · intro left B e ts' hB h
      match ts, hne with
      | [], _ =>
        simp only [parseF, Option.some_inj, Prod.mk.injEq] at h
        obtain ⟨rfl, rfl⟩ := h
        exact hB
      | t :: rest, hne =>
        simp only [parseF] at h
        split at h
        · next hcond =>
          split at h
          · simp at h
          · next ts₂ heq =>
            simp only [Option.some_inj, Prod.mk.injEq] at h
            obtain ⟨rfl, rfl⟩ := h
            have hle := totLen_suffix (parseF_suffix n _ _ _ _ heq)
            omega
          · next right ts₂ heq =>
            have hD := (ih (t :: rest) hne).2.2.1 right ts₂ heq
            have hne₂ : ∀ u ∈ ts₂, u ≠ [] :=
              fun u hu => hne u ((parseF_suffix n _ _ _ _ heq).subset hu)
            have hdl := depthQ_pos left
            have hdr := depthQ_pos right
            refine (ih ts₂ hne₂).2.2.2.2.2 (.andExpr left right) B e ts' ?_ h
            simp only [depthQ]
            rcases Nat.le_total (depthQ left) (depthQ right) with hm | hm
            · rw [Nat.max_eq_right hm]; omega
            · rw [Nat.max_eq_left hm]; omega
        · simp only [Option.some_inj, Prod.mk.injEq] at h
          obtain ⟨rfl, rfl⟩ := h
          exact hB

/-! ### Bridging lemmas -/

theorem parseTokens_eq (ts : List Tok) (h : ts ≠ []) :
    ∃ r rem, parseF (6 * ts.length + 6) .parseOr ts = some (r, rem) ∧ parseTokens ts = r := by
  have hs := parseF_isSome (6 * ts.length + 6) .parseOr ts (by simp [PMode.rank])
  obtain ⟨⟨r, rem⟩, heq⟩ := Option.isSome_iff_exists.mp hs
  refine ⟨r, rem, heq, ?_⟩
  simp only [parseTokens]
  rw [if_neg (by simpa using h), heq]

theorem pyStripList_length_le (l : List Char) : (pyStripList l).length ≤ l.length := by
  unfold pyStripList
  exact le_trans (List.rdropWhile_prefix _ _).length_le (List.dropWhile_suffix _).length_le

/-- The none-result of `parse_query` happens exactly on token lists made of
`(` alone (the empty token list included). -/
theorem parse_query_none_iff (q : String) :
    parse_query q = none ↔ ∀ t ∈ tokenize (pyStripList q.toList), t = ['('] := by
  constructor
  · intro h
    simp only [parse_query] at h
    by_cases hz : pyStripList q.toList = []
    · intro t ht
      rw [hz] at ht
      simp [tokenize, tokenizeF] at ht
    · rw [if_neg hz] at h
      by_cases hempty : tokenize (pyStripList q.toList) = []
      · intro t ht; rw [hempty] at ht; simp at ht
      · obtain ⟨r, rem, heq, hpt⟩ := parseTokens_eq _ hempty
        have hr : r = none := by rw [← hpt, h]
        subst hr
        exact (parseF_none_parens _ _ rem).1 heq
  · intro hp
    simp only [parse_query]
    by_cases hz : pyStripList q.toList = []
    · rw [if_pos hz]
    · rw [if_neg hz]
      by_cases hempty : tokenize (pyStripList q.toList) = []
      · rw [hempty]; rfl
      · rcases (parseF_parens_none (6 * (tokenize (pyStripList q.toList)).length + 6) _ hp).1
          with h | h
        · simp only [parseTokens]
          rw [if_neg (by simpa using hempty), h]
        · simp only [parseTokens]
          rw [if_neg (by simpa using hempty), h]

/-- Any expression returned by `parse_query` has depth at most the length
of the raw query string. -/
theorem parse_query_depth_le (q : String) (e : QueryExpr) (h : parse_query q = some e) :
    depthQ e ≤ q.length := by
  simp only [parse_query] at h
  by_cases hz : pyStripList q.toList = []
  · rw [if_pos hz] at h; exact absurd h (by simp)
  · rw [if_neg hz] at h
    by_cases hempty : tokenize (pyStripList q.toList) = []
    · rw [hempty] at h; simp [parseTokens] at h
    · obtain ⟨r, rem, heq, hpt⟩ := parseTokens_eq _ hempty
      have hr : r = some e := by rw [← hpt, h]
      subst hr
      have hne := tokenize_ne_nil (pyStripList q.toList)
      have hD := (parseF_depth _ _ hne).1 e rem heq
      have h2 : totLen (tokenize (pyStripList q.toList)) ≤ (pyStripList q.toList).length :=
        tokenize_totLen_le _
      have h3 : (pyStripList q.toList).length ≤ q.toList.length := pyStripList_length_le _
      have h4 : q.toList.length = q.length := rfl
      omega

/-! ### Quoted-phrase lemmas -/

theorem notQuote_of_ne (c : Char) (h : c ≠ '"') : notQuote c = true := by
  simpa [notQuote] using h

theorem takeWhile_notQuote_append (p : List Char) (hp : ∀ c ∈ p, c ≠ '"')
    (rest : List Char) :
    (p ++ rest).takeWhile notQuote = p ++ rest.takeWhile notQuote := by
  induction p with
  | nil => rfl
  | cons c cs ih =>
    rw [List.cons_append, List.takeWhile_cons,
      if_pos (notQuote_of_ne c (hp c (List.mem_cons_self c cs)))]
    rw [ih (fun d hd => hp d (List.mem_cons_of_mem c hd))]
    rfl

/-- Tokenizing a single terminated quoted phrase yields one token carrying
both quotes. -/
theorem tokenize_quoted (p : List Char) (hp : ∀ c ∈ p, c ≠ '"') :
    tokenize ('"' :: (p ++ ['"'])) = [('"' :: (p ++ ['"']) : Tok)] := by
  rw [tokenize]
  have hlen : ('"' :: (p ++ ['"'])).length + 1 = (p.length + 2) + 1 := by simp
  rw [hlen, tokenizeF_quote]
  rw [takeWhile_notQuote_append p hp ['"']]
  have h1 : (['"'] : List Char).takeWhile notQuote = [] := rfl
  rw [h1, List.append_nil]
  rw [List.drop_left p ['"']]
  rfl

/-- Tokenizing an unterminated quoted phrase yields one token carrying the
rest of the string. -/
theorem tokenize_unterminated (p : List Char) (hp : ∀ c ∈ p, c ≠ '"') :
    tokenize ('"' :: p) = [('"' :: p : Tok)] := by
  rw [tokenize]
  have hlen : ('"' :: p).length + 1 = (p.length + 1) + 1 := by simp
  rw [hlen, tokenizeF_quote]
  have h1 : p.takeWhile notQuote = p :=
    List.takeWhile_eq_self_iff.mpr (fun c hc => notQuote_of_ne c (hp c hc))
  rw [h1, List.drop_length]
  rfl

theorem stripQuoteChars_wrapped (p : List Char) (hp : ∀ c ∈ p, c ≠ '"') :
    stripQuoteChars ('"' :: (p ++ ['"'])) = p := by
  unfold stripQuoteChars
  rw [List.dropWhile_cons]
  simp only [beq_self_eq_true, if_true]
  cases p with
  | nil => rfl
  | cons a as =>
    rw [List.cons_append, List.dropWhile_cons,
      if_neg (by simpa using hp a (List.mem_cons_self a as))]
    rw [show (a :: (as ++ ['"']) : List Char) = (a :: as) ++ ['"'] from rfl]
    rw [List.rdropWhile_concat_pos _ _ '"' (by simp)]
    rw [List.rdropWhile_eq_self_iff.mpr]
    intro hl
    simpa using hp _ (List.getLast_mem hl)

theorem stripQuoteChars_unterminated (p : List Char) (hp : ∀ c ∈ p, c ≠ '"') :
    stripQuoteChars ('"' :: p) = p := by
  unfold stripQuoteChars
  rw [List.dropWhile_cons]
  simp only [beq_self_eq_true, if_true]
  cases p with
  | nil => rfl
  | cons a as =>
    rw [List.dropWhile_cons, if_neg (by simpa using hp a (List.mem_cons_self a as))]
    rw [List.rdropWhile_eq_self_iff.mpr]
    intro hl
    simpa using hp _ (List.getLast_mem hl)

/-- Parsing a single token that starts with a quote yields a `TextSearch`
with the quote characters stripped. -/
theorem parseTokens_single_quoted (t' : List Char) :
    parseTokens ['"' :: t'] =
      some (.textSearch (String.mk (stripQuoteChars ('"' :: t')))) := by
  simp [parseTokens, parseF, parseAtomFromToken]

/-! ### Compiler lemmas -/

/-- The escaping rule as the spec words it: each literal double-quote
character in the value is replaced by a backslash-quote pair, all other
characters are kept. -/
def specEscape (l : List Char) : List Char :=
  (l.map (fun c => if c = '"' then ['\\', '"'] else [c])).flatten

/-- The backend contract string for a text search, per the spec. -/
def specTextSelector (v : String) : String :=
  String.mk ("CONTAINS(CONCATENATE([Title], \" \", [Content]), \"".toList
    ++ specEscape v.toList ++ "\")".toList)

/-- The backend contract string for a label filter, per the spec. -/
def specLabelSelector (v : String) : String :=
  String.mk ("CONTAINS([Labels], \"".toList ++ specEscape v.toList ++ "\")".toList)

theorem replaceChar_eq_specEscape (l : List Char) :
    replaceChar '"' ['\\', '"'] l = specEscape l := by
  induction l with
  | nil => rfl
  | cons c cs ih =>
    simp only [replaceChar, specEscape, List.map_cons, List.flatten_cons] at ih ⊢
    split <;> simp [ih]

theorem queryToSelectorDyn_toDyn (e : QueryExpr) :
    queryToSelectorDyn (toDyn e) = .ok (queryToSelector e) := by
  induction e with
  | textSearch v => rfl
  | labelFilter v => rfl
  | notExpr e ih =>
    simp only [toDyn, queryToSelectorDyn, ih]
    rfl
  | andExpr l r ihl ihr =>
    simp only [toDyn, queryToSelectorDyn, ihl, ihr]
    rfl
  | orExpr l r ihl ihr =>
    simp only [toDyn, queryToSelectorDyn, ihl, ihr]
    rfl

/-! ### Claim theorems -/

/-- C1 (counterexample): the query `"("` has a non-empty token sequence,
yet `parse_query` returns no expression — refuting the claim that every
non-empty token sequence resolves to some tree. -/
theorem C1_cex :
    tokenize (pyStripList ("(" : String).toList) ≠ [] ∧ parse_query "(" = none := by
  constructor
  · decide
  · decide

/-- C1 (amended): `parse_query` returns `None` exactly when the token
sequence of the trimmed query is empty (empty or whitespace-only input)
or consists solely of `(` tokens; every other query yields some tree.  In
particular the empty and whitespace-only queries return `None`. -/
theorem C1_amended :
    (∀ q : String,
        parse_query q = none ↔ ∀ t ∈ tokenize (pyStripList q.toList), t = ['(']) ∧
    parse_query "" = none ∧ parse_query "   " = none :=
  ⟨parse_query_none_iff, by decide, by decide⟩

/-- Witness for C1: the amended characterization applied to the concrete
query `"(("`. -/
theorem C1_witness : parse_query "((" = none :=
  (C1_amended.1 "((").mpr (by decide)

/-- C2 (counterexample): with sort `-modified` and the whitespace query
`" "` (which produces no filter expression), `list` builds no Selector at
all instead of the claimed `OrderBy` clause over the unfiltered table. -/
theorem C2_cex :
    parse_query " " = none ∧
    buildSelector "Note" (some " ") (some "-modified") = none := by
  constructor
  · decide
  · decide

/-- C2 (amended): when the query is absent or the empty string and a
non-empty sort is given, the Selector is the `OrderBy` clause over the
unfiltered table (descending flag `TRUE` exactly for a leading `-`); but
when the query is non-empty and merely parses to no expression, no
Selector is produced.  In particular `-modified` yields
`OrderBy(Note, [Modified], TRUE)` and `modified` yields `FALSE`. -/
theorem C2_amended :
    (∀ table s : String, s ≠ "" →
        buildSelector table none (some s) =
            some ("OrderBy(" ++ table ++ ", [" ++
              pyCapitalize (String.mk (s.toList.dropWhile (· == '-'))) ++ "], " ++
              (if s.toList.head? = some '-' then "TRUE" else "FALSE") ++ ")") ∧
          buildSelector table (some "") (some s) =
            some ("OrderBy(" ++ table ++ ", [" ++
              pyCapitalize (String.mk (s.toList.dropWhile (· == '-'))) ++ "], " ++
              (if s.toList.head? = some '-' then "TRUE" else "FALSE") ++ ")") ∧
          (∀ q : String, q ≠ "" → parse_query q = none →
            buildSelector table (some q) (some s) = none)) ∧
    buildSelector "Note" none (some "-modified") =
      some "OrderBy(Note, [Modified], TRUE)" ∧
    buildSelector "Note" none (some "modified") =
      some "OrderBy(Note, [Modified], FALSE)" := by
  refine ⟨?_, by decide, by decide⟩
  intro table s hs
  have hse : s.isEmpty = false := by rwa [Bool.eq_false_iff, ne_eq, String.isEmpty_iff]
  refine ⟨?_, ?_, ?_⟩
  · simp [buildSelector, pyTruthy, hse, orderByClause]
  · simp [buildSelector, pyTruthy, hse, orderByClause,
      show ("" : String).isEmpty = true from rfl]
  · intro q hq hqn
    have hqe : q.isEmpty = false := by rwa [Bool.eq_false_iff, ne_eq, String.isEmpty_iff]
    simp [buildSelector, pyTruthy, hqe, hqn]

/-- Witness for C2: the amended statement applied at table `Note`, sort
`-modified` and the whitespace query. -/
theorem C2_witness :
    buildSelector "Note" none (some "-modified") =
        some ("OrderBy(" ++ "Note" ++ ", [" ++
          pyCapitalize (String.mk (("-modified" : String).toList.dropWhile (· == '-'))) ++
          "], " ++
          (if ("-modified" : String).toList.head? = some '-' then "TRUE" else "FALSE") ++
          ")") ∧
      buildSelector "Note" (some " ") (some "-modified") = none :=
  ⟨(C2_amended.1 "Note" "-modified" (by decide)).1,
   (C2_amended.1 "Note" "-modified" (by decide)).2.2 " " (by decide) (by decide)⟩

/-- C3 (confirmed): tokenization and parsing are total — the fuel that
models the Python loops never runs out at the linear bound the embedding
uses, so `parse_query` always returns a tree or `None`; on the cited
malformed inputs (unterminated quote, unmatched parenthesis, dangling OR,
trailing `-`) it returns the graceful best-effort values. -/
theorem C3_thm :
    (∀ q : String, parse_query q = none ∨ ∃ e, parse_query q = some e) ∧
    (∀ q : String, (tokenizeF (q.toList.length + 1) q.toList).isSome = true) ∧
    (∀ ts : List Tok, (parseF (6 * ts.length + 6) .parseOr ts).isSome = true) ∧
    parse_query "\"unterminated phrase" = some (.textSearch "unterminated phrase") ∧
    parse_query "(meeting" = some (.textSearch "meeting") ∧
    parse_query "meeting OR" = some (.textSearch "meeting") ∧
    parse_query "meeting -" =
      some (.andExpr (.textSearch "meeting") (.textSearch "-")) :=
  ⟨fun q => Option.eq_none_or_eq_some (parse_query q),
   fun q => tokenizeF_isSome _ q.toList le_rfl,
   fun ts => parseF_isSome _ .parseOr ts (by simp [PMode.rank]),
   by decide, by decide, by decide, by decide⟩

/-- C4 (confirmed): implicit AND binds tighter than OR, both fold
left-associatively, and the OR keyword is matched case-insensitively: any
token whose uppercasing is `OR` combines the adjacent And-groups into an
`Or` node, and the cited example parses to
`Or(And(TextSearch("meeting"), LabelFilter("work")), LabelFilter("home"))`. -/
theorem C4_thm :
    (∀ o : Tok, pyUpperTok o = ['O', 'R'] →
        parseTokens [['a'], o, ['b']] =
          some (.orExpr (.textSearch "a") (.textSearch "b"))) ∧
    parse_query "meeting label:work OR label:home" =
      some (.orExpr (.andExpr (.textSearch "meeting") (.labelFilter "work"))
        (.labelFilter "home")) ∧
    parse_query "meeting label:work or label:home" =
      some (.orExpr (.andExpr (.textSearch "meeting") (.labelFilter "work"))
        (.labelFilter "home")) ∧
    parse_query "label:work OR label:personal" =
      some (.orExpr (.labelFilter "work") (.labelFilter "personal")) ∧
    parse_query "alpha beta gamma" =
      some (.andExpr (.andExpr (.textSearch "alpha") (.textSearch "beta"))
        (.textSearch "gamma")) ∧
    parse_query "a OR b OR c" =
      some (.orExpr (.orExpr (.textSearch "a") (.textSearch "b")) (.textSearch "c")) := by
  refine ⟨?_, by decide, by decide, by decide, by decide, by decide⟩
  intro o h
  have ho : o ≠ [] := by
    intro hc; subst hc; simp [pyUpperTok] at h
  simp [parseTokens, parseF, parseAtomFromToken, pyLowerTok, ho, h]

/-- Witness for C4: the case-insensitive OR statement applied to the
lowercase token `or`. -/
theorem C4_witness :
    parseTokens [['a'], ['o','r'], ['b']] =
      some (.orExpr (.textSearch "a") (.textSearch "b")) :=
  C4_thm.1 ['o','r'] (by decide)

/-- C5 (confirmed): lowering of leaf nodes reproduces the backend contract
exactly, with each literal double-quote of the value escaped: for every
value `v`, `TextSearch(v)` compiles to
`CONTAINS(CONCATENATE([Title], " ", [Content]), "<v escaped>")` and
`LabelFilter(v)` to `CONTAINS([Labels], "<v escaped>")`; in particular
`LabelFilter("work")` compiles to exactly `CONTAINS([Labels], "work")`. -/
theorem C5_thm :
    (∀ v : String, queryToSelector (.textSearch v) = specTextSelector v) ∧
    (∀ v : String, queryToSelector (.labelFilter v) = specLabelSelector v) ∧
    queryToSelector (.labelFilter "work") = "CONTAINS([Labels], \"work\")" ∧
    queryToSelector (.labelFilter "say \"hi\"") =
      "CONTAINS([Labels], \"say \\\"hi\\\"\")" := by
  refine ⟨?_, ?_, by decide, by decide⟩
  · intro v
    refine String.ext ?_
    simp [queryToSelector, specTextSelector, escapeQuotes, replaceChar_eq_specEscape,
      String.data_append, String.toList]
  · intro v
    refine String.ext ?_
    simp [queryToSelector, specLabelSelector, escapeQuotes, replaceChar_eq_specEscape,
      String.data_append, String.toList]

/-- C6 (confirmed): a word token starting with `-` and longer than one
character parses to `Not` of the atom parsed from the remainder after the
dash, while a bare `-` parses as the ordinary word `TextSearch("-")`; the
cited negation examples parse accordingly. -/
theorem C6_thm :
    (∀ (c : Char) (ds : List Char),
        parseTokens [('-' :: c :: ds : Tok)] =
          some (.notExpr (parseAtomFromToken (c :: ds)))) ∧
    parse_query "-" = some (.textSearch "-") ∧
    parse_query "-label:archived" = some (.notExpr (.labelFilter "archived")) ∧
    parse_query "meeting -label:archived" =
      some (.andExpr (.textSearch "meeting") (.notExpr (.labelFilter "archived"))) := by
  refine ⟨?_, by decide, by decide, by decide⟩
  intro c ds
  have hcond : (('-' :: c :: ds : Tok).head? = some '-' ∧ 1 < ('-' :: c :: ds : Tok).length) := by
    refine ⟨rfl, ?_⟩
    simp only [List.length_cons]
    omega
  simp [parseTokens, parseF, hcond]

/-- C7 (confirmed): a double-quoted phrase parses to `TextSearch` of its
contents with the surrounding quotes stripped, and an unterminated quote
takes the remainder of the string as the phrase, yielding the same
`TextSearch` value as the terminated form; in particular
`"exact phrase"` parses to `TextSearch("exact phrase")`. -/
theorem C7_thm :
    (∀ p : List Char, (∀ c ∈ p, c ≠ '"') →
        parseTokens (tokenize ('"' :: (p ++ ['"']))) =
            some (.textSearch (String.mk p)) ∧
          parseTokens (tokenize ('"' :: p)) = some (.textSearch (String.mk p))) ∧
    parse_query "\"exact phrase\"" = some (.textSearch "exact phrase") ∧
    parse_query "\"exact phrase" = some (.textSearch "exact phrase") := by
  refine ⟨?_, by decide, by decide⟩
  intro p hp
  constructor
  · rw [tokenize_quoted p hp, parseTokens_single_quoted (p ++ ['"']),
      stripQuoteChars_wrapped p hp]
  · rw [tokenize_unterminated p hp, parseTokens_single_quoted p,
      stripQuoteChars_unterminated p hp]

/-- Witness for C7: the phrase statement applied to the concrete contents
`hi`. -/
theorem C7_witness :
    parseTokens (tokenize ('"' :: (['h','i'] ++ ['"']))) =
        some (.textSearch (String.mk ['h','i'])) ∧
      parseTokens (tokenize ('"' :: ['h','i'])) =
        some (.textSearch (String.mk ['h','i'])) :=
  C7_thm.1 ['h','i'] (by decide)

/-- C8 (confirmed): the compiler fails fast exactly on values outside the
five known variants — a foreign value produces the `Unknown expression
type` error (which propagates out of nested positions via the recursion),
and every well-formed `QueryExpr` tree compiles to a string without
error. -/
theorem C8_thm :
    (∀ typeName : String, queryToSelectorDyn (.foreign typeName) =
        .error ("Unknown expression type: " ++ typeName)) ∧
    (∀ e : QueryExpr, queryToSelectorDyn (toDyn e) = .ok (queryToSelector e)) :=
  ⟨fun _ => rfl, queryToSelectorDyn_toDyn⟩

/-- C9 (counterexample): `parse_query "label:"` returns
`LabelFilter("")` — a leaf carrying an empty value, refuting the claim
that every `TextSearch`/`LabelFilter` carries a non-empty value. -/
theorem C9_cex : parse_query "label:" = some (.labelFilter "") := by decide

/-- C9 (amended): every tree returned by `parse_query` is structurally
well-formed (in the typed AST every `Not`/`And`/`Or` node has actual child
expressions by construction) and its depth is bounded by the length of the
input string; leaf values, however, may be empty strings. -/
theorem C9_amended : ∀ (q : String) (e : QueryExpr),
    parse_query q = some e → depthQ e ≤ q.length :=
  parse_query_depth_le

/-- Witness for C9: the depth bound applied to the concrete query `ab`. -/
theorem C9_witness : depthQ (.textSearch "ab") ≤ ("ab" : String).length :=
  C9_amended "ab" (.textSearch "ab") (by decide)

/-- C10 (confirmed): tokenization and parsing terminate on every input
with work linear in the input — fuel `length + 1` always suffices for the
tokenizer, fuel `6 * tokens + 6` suffices for every parser nonterminal,
and each successful recursive-descent step strictly consumes tokens. -/
theorem C10_thm :
    (∀ (n : Nat) (cs : List Char), cs.length + 1 ≤ n →
        (tokenizeF n cs).isSome = true) ∧
    (∀ (n : Nat) (m : PMode) (ts : List Tok), 6 * ts.length + 6 ≤ n →
        (parseF n m ts).isSome = true) ∧
    (∀ (n : Nat) (ts : List Tok) (e : QueryExpr) (ts' : List Tok),
        parseF n .parseUnary ts = some (some e, ts') → ts'.length < ts.length) :=
  ⟨tokenizeF_isSome,
   fun n m ts h =>
     parseF_isSome n m ts (le_trans (by cases m <;> simp [PMode.rank]) h),
   fun n ts e ts' h => (parseF_consume n ts e ts').2.2.1 h⟩

/-- Witness for C10: the termination bounds applied to concrete inputs. -/
theorem C10_witness :
    (tokenizeF 4 ['a', 'b', 'c']).isSome = true ∧
    (parseF 12 .parseOr [['a']]).isSome = true ∧
    ([] : List Tok).length < [(['a'] : Tok)].length :=
  ⟨C10_thm.1 4 ['a', 'b', 'c'] (by decide),
   C10_thm.2.1 12 .parseOr [['a']] (by decide),
   C10_thm.2.2 12 [['a']] (.textSearch "a") [] (by decide)⟩
